import Mathlib

/-!
Verification of the hdrs columnar tick-series codec.

Shallow embedding of the Rust sources:
  * `src/crc32.rs`          — table-driven CRC-32 (reflected IEEE polynomial)
  * `src/delta_encoding.rs` — variable-width signed basis-point delta codec
  * `src/compression.rs`    — frame compressor and blob serializer

Machine integers are modelled as `Nat` (unsigned) or `Int` (signed) with the
wrap-around of Rust casts written out explicitly (`% 2^w`, `Int.emod`).
A byte string is a `List Nat` whose elements are `< 256`.  An `f64` appears
either as its 64-bit little-endian bit pattern (`Nat < 2^64`, used by the
blob serializer, which only ever moves the raw bytes) or, in the frame
compressor, as an abstract price type `α` together with explicitly passed
functions for the two floating-point computations the compressor performs
(`deltaBp` for the rounded basis-point delta, `applyDelta` for the decoder's
multiplicative reconstruction, `bits` for `f64::to_le_bytes`).
-/

namespace Hdrs

/-! ## CRC-32 engine (src/crc32.rs) -/

/-- Rust: `static POLY: u32 = 0xEDB88320`. -/
def POLY : Nat := 0xEDB88320

/-- One iteration of the table-generation loop in `Crc32::new`:
`if crc & 1 != 0 { crc = (crc >> 1) ^ POLY } else { crc >>= 1 }`. -/
def crcStep (c : Nat) : Nat :=
  if c % 2 = 1 then (c / 2) ^^^ POLY else c / 2

/-- Rust `Crc32::new` builds `table[i]` by running `crcStep` eight times on `i`. -/
def crcTable (i : Nat) : Nat := crcStep^[8] i

/-- One iteration of the loop in `Crc32::checksum`:
`let i = ((crc ^ byte) & 0xFF) as usize; crc = (crc >> 8) ^ self.table[i]`. -/
def crcUpdate (c b : Nat) : Nat :=
  (c >>> 8) ^^^ crcTable ((c ^^^ b) &&& 0xFF)

/-- Rust `Crc32::checksum`: register starts at `0xFFFFFFFF`, one `crcUpdate` per
byte, final bitwise NOT (on a `u32`, `!crc = crc ^ 0xFFFFFFFF`). -/
def crc32 (data : List Nat) : Nat :=
  (data.foldl crcUpdate 0xFFFFFFFF) ^^^ 0xFFFFFFFF

/-! ## Little-endian integer images

`to_le_bytes`/`from_le_bytes` on the fixed-width unsigned integers used by
the wire format. -/

/-- The `k`-byte little-endian image of `v` (the image of `v % 256^k`). -/
def leBytes : Nat → Nat → List Nat
  | 0, _ => []
  | k + 1, v => (v % 256) :: leBytes k (v / 256)

/-- Rust `from_le_bytes`: recombine little-endian bytes into a `Nat`. -/
def decodeLE (l : List Nat) : Nat :=
  l.foldr (fun b acc => b + 256 * acc) 0

@[simp] theorem leBytes_length (k v : Nat) : (leBytes k v).length = k := by
  induction k generalizing v with
  | zero => rfl
  | succ k ih => simp [leBytes, ih]

theorem leBytes_lt (k v : Nat) : ∀ b ∈ leBytes k v, b < 256 := by
  induction k generalizing v with
  | zero => simp [leBytes]
  | succ k ih =>
    intro b hb
    simp only [leBytes, List.mem_cons] at hb
    rcases hb with h | h
    · omega
    · exact ih _ b h

@[simp] theorem decodeLE_nil : decodeLE [] = 0 := rfl

@[simp] theorem decodeLE_cons (b : Nat) (l : List Nat) :
    decodeLE (b :: l) = b + 256 * decodeLE l := rfl

theorem decodeLE_leBytes (k v : Nat) (h : v < 256 ^ k) :
    decodeLE (leBytes k v) = v := by
  induction k generalizing v with
  | zero => simp [leBytes]; omega
  | succ k ih =>
    have hv : v / 256 < 256 ^ k := by
      rw [Nat.div_lt_iff_lt_mul (by omega)]
      calc v < 256 ^ (k + 1) := h
        _ = 256 ^ k * 256 := by rw [Nat.pow_succ]
    simp [leBytes, ih (v / 256) hv]
    omega

theorem decodeLE_lt (l : List Nat) (h : ∀ b ∈ l, b < 256) :
    decodeLE l < 256 ^ l.length := by
  induction l with
  | nil => simp
  | cons b t ih =>
    have hb : b < 256 := h b (by simp)
    have ht := ih (fun x hx => h x (by simp [hx]))
    simp only [decodeLE_cons, List.length_cons, Nat.pow_succ]
    calc b + 256 * decodeLE t < 256 + 256 * decodeLE t := by omega
      _ ≤ 256 * (decodeLE t + 1) := by ring_nf; omega
      _ ≤ 256 * 256 ^ t.length := by
          have : decodeLE t + 1 ≤ 256 ^ t.length := ht
          exact Nat.mul_le_mul_left 256 this
      _ = 256 ^ t.length * 256 := by ring

/-- Base-256 positional uniqueness: equal-length byte lists with all bytes
`< 256` and equal `decodeLE` values are equal. -/
theorem decodeLE_inj : ∀ (l1 l2 : List Nat), l1.length = l2.length →
    (∀ b ∈ l1, b < 256) → (∀ b ∈ l2, b < 256) →
    decodeLE l1 = decodeLE l2 → l1 = l2
  | [], [], _, _, _, _ => rfl
  | a :: t1, b :: t2, hlen, h1, h2, heq => by
    have ha : a < 256 := h1 a (by simp)
    have hb : b < 256 := h2 b (by simp)
    simp only [decodeLE_cons] at heq
    have hab : a = b := by omega
    have ht : decodeLE t1 = decodeLE t2 := by omega
    have := decodeLE_inj t1 t2 (by simpa using hlen)
      (fun x hx => h1 x (by simp [hx])) (fun x hx => h2 x (by simp [hx])) ht
    rw [hab, this]

/-! ## Delta codec (src/delta_encoding.rs) -/

/-- Rust: `enum DeltaEncoding { Tiny(i8), Small(i16), Large(i32) }`.  The payloads
are `Int`s; the constructing code only ever stores values inside the
corresponding machine-integer range. -/
inductive DeltaEncoding where
  | Tiny : Int → DeltaEncoding
  | Small : Int → DeltaEncoding
  | Large : Int → DeltaEncoding
deriving DecidableEq, Repr

/-- Rust `v as u8` for a signed value: the low byte (two's complement). -/
def tu8 (v : Int) : Nat := (v % 256).toNat

/-- Rust `DeltaEncoding::from_basis`.  Rust's `bp` is an `i32`; the final guard is
`bp <= i32::MAX`. -/
def fromBasis (bp : Int) : Except String DeltaEncoding :=
  if -8 ≤ bp ∧ bp ≤ 7 then .ok (.Tiny bp)
  else if -8192 ≤ bp ∧ bp ≤ 8191 then .ok (.Small bp)
  else if bp ≤ 2 ^ 31 - 1 then .ok (.Large bp)
  else .error "Basis must be between -8 and i32::MAX"

/-- Rust `DeltaEncoding::to_basis` (the `as i32` casts are identities on the
ranges stored by `from_basis`). -/
def DeltaEncoding.toBasis : DeltaEncoding → Int
  | .Tiny v => v
  | .Small v => v
  | .Large v => v

/-- Rust `DeltaEncoding::encode`, appending this frame's bytes to `buf`.
Tiny: `(v as u8) & 0x0F`.  Small: `0b01000000 | ((v as u8) & 0x3F)` then
`((v >> 6) as u8)` (`>>` on `i16` is an arithmetic shift, i.e. `Int.fdiv`).
Large: `0b11000000` then the four little-endian bytes of the `i32`. -/
def DeltaEncoding.encode : DeltaEncoding → List Nat → List Nat
  | .Tiny v, buf => buf ++ [tu8 v &&& 0x0F]
  | .Small v, buf => buf ++ [0b01000000 ||| (tu8 v &&& 0x3F), tu8 (Int.fdiv v 64)]
  | .Large v, buf => buf ++ (0b11000000 :: leBytes 4 (v % 2 ^ 32).toNat)

/-- Rust `i32::from_le_bytes` as a signed reinterpretation of a 32-bit value. -/
def sign32 (n : Nat) : Int := if n ≥ 2 ^ 31 then (n : Int) - 2 ^ 32 else n

/-- Rust `DeltaEncoding::decode`.  The cursor `pos: &mut usize` is modelled by
returning the new position alongside the decoded frame. -/
def DeltaEncoding.decode (buf : List Nat) (pos : Nat) :
    Except String (DeltaEncoding × Nat) :=
  if h : pos ≥ buf.length then .error "Buffer underrun"
  else
    let first := buf.get ⟨pos, by omega⟩
    let pre := first >>> 6
    if pre = 0 then
      let v : Int := (first &&& 0x0F : Nat)
      let v := if v > 7 then v - 16 else v
      .ok (.Tiny v, pos + 1)
    else if pre = 1 then
      if h2 : pos + 1 ≥ buf.length then .error "Buffer underrun"
      else
        let l : Nat := first &&& 0x3F
        let hb := buf.get ⟨pos + 1, by omega⟩
        let v : Int := ((hb <<< 6) ||| l : Nat)
        let v := if v > 8191 then v - 16384 else v
        .ok (.Small v, pos + 2)
    else
      if h3 : pos + 4 ≥ buf.length then .error "Buffer underrun"
      else
        let v := sign32 (decodeLE ((buf.drop (pos + 1)).take 4))
        .ok (.Large v, pos + 5)

/-- Wire size of each variant: 1, 2 or 5 bytes. -/
def DeltaEncoding.byteCount : DeltaEncoding → Nat
  | .Tiny _ => 1
  | .Small _ => 2
  | .Large _ => 5

instance {ε α : Type} [DecidableEq ε] [DecidableEq α] : DecidableEq (Except ε α) := fun x y =>
  match x, y with
  | .ok a, .ok b =>
    if h : a = b then .isTrue (congrArg Except.ok h)
    else .isFalse (fun hc => h (Except.ok.inj hc))
  | .error a, .error b =>
    if h : a = b then .isTrue (congrArg Except.error h)
    else .isFalse (fun hc => h (Except.error.inj hc))
  | .ok _, .error _ => .isFalse (fun hc => Except.noConfusion hc)
  | .error _, .ok _ => .isFalse (fun hc => Except.noConfusion hc)

/-! ## Frame compressor (src/compression.rs, `compress` / `decompress`)

A `Tick` is `(timestamp: u64, prices: HashMap<String, f64>)`.  The price map
is modelled as an association list whose order is the map's iteration order
(Rust `HashMap` iteration order is arbitrary; the list order makes it an
explicit input).  Prices stay abstract (`α`); the two `f64` computations of
the codec are passed in:

  * `deltaBp price prev` models `((price - prev) / prev * 10000.0).round() as i32`;
  * `applyDelta curr bp` models `curr * (1.0 + bp as f64 / 10000.0)`;
  * `bits p` models the `u64` bit pattern behind `p.to_le_bytes()`.
-/

structure Tick (α : Type) where
  timestamp : Nat
  prices : List (String × α)
deriving Repr, DecidableEq

/-- The `sym_idx` lookup: index of `s` in the symbol dictionary (the
dictionary is built from the first tick's keys, which are distinct). -/
def symIndex (symbols : List String) (s : String) : Option Nat :=
  symbols.findIdx? (fun t => t = s)

/-- In-memory compressed record at the frame-compressor level.  `ref_frame`
holds abstract prices; `data` is the tick payload byte string. -/
structure TSRecord (α : Type) where
  version : Nat
  symbols : List String
  base_ts : Nat
  ref_frame : List α
  data : List Nat
  num_ticks : Nat
  ref_crc : Nat
  data_crc : Nat
deriving Repr, DecidableEq

/-- Rust: `let mut ref_frame = vec![0.0; n]; for (sym, &price) in &ticks[0].prices
{ if let Some(&idx) = sym_idx.get(sym) { ref_frame[idx] = price } }`
(`z` stands for the `0.0` fill). -/
def buildRefFrame (z : α) (symbols : List String) (prices : List (String × α)) :
    List α :=
  prices.foldl
    (fun rf sp =>
      match symIndex symbols sp.1 with
      | some idx => rf.set idx sp.2
      | none => rf)
    (List.replicate symbols.length z)

/-- Per-symbol state of the inner loop of `compress` over one tick:
`(changed, deltas, prev)`.  Each visited symbol found in the dictionary
computes its basis-point delta against `prev[idx]`; a non-zero delta marks
the bit, records `(idx, price, delta_bp)` *in map-iteration order*, and
overwrites `prev[idx]` with the raw price. -/
def tickScan (deltaBp : α → α → Int) (z : α) (symbols : List String)
    (prev : List α) (prices : List (String × α)) :
    List Bool × List (Nat × α × Int) × List α :=
  prices.foldl
    (fun st sp =>
      match symIndex symbols sp.1 with
      | some idx =>
        let bp := deltaBp sp.2 (st.2.2.getD idx z)
        if bp ≠ 0 then
          (st.1.set idx true, st.2.1 ++ [(idx, sp.2, bp)], st.2.2.set idx sp.2)
        else st
      | none => st)
    (List.replicate symbols.length false, [], prev)

/-- The change bitmap: `bm[idx / 8] |= 1 << (idx % 8)` for every set flag. -/
def buildBitmap (n : Nat) (changed : List Bool) : List Nat :=
  changed.enum.foldl
    (fun bm p =>
      if p.2 then bm.set (p.1 / 8) ((bm.getD (p.1 / 8) 0) ||| (1 <<< (p.1 % 8)))
      else bm)
    (List.replicate ((n + 7) / 8) 0)

/-- Payload bytes appended for one later tick: 4-byte LE `ts_delta`
(`(tick.timestamp - base_ts) as u32`), the bitmap, then one delta frame per
recorded delta in the order `deltas` was built.  The source calls
`DeltaEncoding::from_basis(delta_bp).encode(&mut data)`; `from_basis` never
returns the error branch, and an error would encode nothing. -/
def encodeTick (deltaBp : α → α → Int) (z : α) (symbols : List String)
    (baseTs : Nat) (prev : List α) (tick : Tick α) : List α × List Nat :=
  let (changed, deltas, prev') := tickScan deltaBp z symbols prev tick.prices
  let bytes :=
    leBytes 4 ((tick.timestamp - baseTs) % 2 ^ 32)
      ++ buildBitmap symbols.length changed
      ++ deltas.foldl
          (fun buf d =>
            match fromBasis d.2.2 with
            | .ok e => e.encode buf
            | .error _ => buf)
          []
  (prev', bytes)

/-- Rust `CompressedTimeSeries::compress`. -/
def compress (deltaBp : α → α → Int) (bits : α → Nat) (z : α)
    (ticks : List (Tick α)) : Except String (TSRecord α) :=
  match ticks with
  | [] => .error "Empty tick data"
  | t0 :: rest =>
    let symbols := t0.prices.map Prod.fst
    let ref_frame := buildRefFrame z symbols t0.prices
    let refBytes := ref_frame.foldl (fun acc p => acc ++ leBytes 8 (bits p)) []
    let ref_crc := crc32 refBytes
    let (_, data) :=
      rest.foldl
        (fun st tick =>
          let (prev', bytes) := encodeTick deltaBp z symbols t0.timestamp st.1 tick
          (prev', st.2 ++ bytes))
        (ref_frame, [])
    .ok
      { version := 1
        symbols := symbols
        base_ts := t0.timestamp
        ref_frame := ref_frame
        data := data
        num_ticks := (t0 :: rest).length % 2 ^ 32
        ref_crc := ref_crc
        data_crc := crc32 data }

/-- Inner loop of `decompress` over one tick record: for `idx in 0..n`, if
bit `idx` of the bitmap is set, decode one delta frame at the shared cursor
and update `curr[idx] *= 1.0 + delta_bp / 10000.0`. -/
def applyTickDeltas (applyDelta : α → Int → α) (z : α) (n : Nat)
    (buf : List Nat) (bm : List Nat) (pos : Nat) (curr : List α) :
    Except String (Nat × List α) :=
  (List.range n).foldlM
    (fun st idx =>
      if (bm.getD (idx / 8) 0) &&& (1 <<< (idx % 8)) ≠ 0 then
        match DeltaEncoding.decode buf st.1 with
        | .ok (e, pos') => .ok (pos', st.2.set idx (applyDelta (st.2.getD idx z) e.toBasis))
        | .error s => .error s
      else .ok st)
    (pos, curr)

/-- The `while pos < self.data.len()` loop of `decompress`, with explicit
fuel (each iteration consumes at least four bytes, so `buf.length + 1`
iterations always suffice; the fuel-exhausted branch is unreachable when the
loop is started with that much fuel). -/
def decompressLoop (applyDelta : α → Int → α) (z : α) (symbols : List String)
    (baseTs : Nat) (buf : List Nat) :
    Nat → Nat → List α → List (Tick α) → Except String (List (Tick α))
  | 0, _, _, acc => .ok acc
  | fuel + 1, pos, curr, acc =>
    if pos < buf.length then
      if pos + 4 > buf.length then .ok acc
      else
        let tsDelta := decodeLE ((buf.drop pos).take 4)
        let n := symbols.length
        let bmBytes := (n + 7) / 8
        if pos + 4 + bmBytes > buf.length then .ok acc
        else
          let bm := (buf.drop (pos + 4)).take bmBytes
          match applyTickDeltas applyDelta z n buf bm (pos + 4 + bmBytes) curr with
          | .error s => .error s
          | .ok (pos', curr') =>
            let tick : Tick α :=
              ⟨baseTs + tsDelta, symbols.enum.map (fun p => (p.2, curr'.getD p.1 z))⟩
            decompressLoop applyDelta z symbols baseTs buf fuel pos' curr' (acc ++ [tick])
    else .ok acc

/-- Rust `CompressedTimeSeries::decompress`. -/
def decompress (applyDelta : α → Int → α) (bits : α → Nat) (z : α)
    (r : TSRecord α) : Except String (List (Tick α)) :=
  let refBytes := r.ref_frame.foldl (fun acc p => acc ++ leBytes 8 (bits p)) []
  if crc32 refBytes ≠ r.ref_crc then .error "Reference checksum mismatch"
  else if crc32 r.data ≠ r.data_crc then .error "Data checksum mismatch"
  else
    let first : Tick α :=
      ⟨r.base_ts, r.symbols.enum.map (fun p => (p.2, r.ref_frame.getD p.1 z))⟩
    decompressLoop applyDelta z r.symbols r.base_ts r.data
      (r.data.length + 1) 0 r.ref_frame [first]

/-! ## Blob serializer (src/compression.rs, `serialize` / `deserialize`)

At this level the record is pure bytes: a symbol is its UTF-8 byte string,
an `f64` its 64-bit little-endian bit pattern.  Rust's `String::from_utf8`
validity check is modelled by `utf8Valid` (RFC 3629 well-formedness, which
is exactly what `from_utf8` accepts).  An out-of-bounds slice index in
`deserialize` is a Rust panic, modelled by the distinct outcome `crash`. -/

/-- The struct `CompressedTimeSeries` at the byte level. -/
structure Record where
  version : Nat
  symbols : List (List Nat)
  base_ts : Nat
  ref_frame : List Nat
  data : List Nat
  num_ticks : Nat
  ref_crc : Nat
  data_crc : Nat
  overall_crc : Nat
deriving Repr, DecidableEq

/-- The bytes written by `serialize` before the trailer. -/
def serializeBody (r : Record) : List Nat :=
  [r.version]
    ++ leBytes 2 (r.symbols.length % 2 ^ 16)
    ++ leBytes 4 r.num_ticks
    ++ leBytes 8 r.base_ts
    ++ r.symbols.flatMap (fun s => (s.length % 256) :: s)
    ++ r.ref_frame.flatMap (fun p => leBytes 8 p)
    ++ leBytes 4 r.ref_crc
    ++ leBytes 4 r.data_crc
    ++ leBytes 4 (r.data.length % 2 ^ 32)
    ++ r.data

/-- Rust `CompressedTimeSeries::serialize`: the body followed by the CRC-32 of
the body as a 4-byte little-endian trailer.  (Writing to a `Vec` cannot
fail, so the Rust `io::Result` is always `Ok`.) -/
def serialize (r : Record) : List Nat :=
  serializeBody r ++ leBytes 4 (crc32 (serializeBody r))

/-- Is a continuation byte (`0x80..=0xBF`)? -/
def contOk (c : Nat) : Bool := 0x80 ≤ c ∧ c ≤ 0xBF

/-- UTF-8 well-formedness of a byte string (what `String::from_utf8`
accepts): RFC 3629 shortest-form sequences, surrogates excluded,
code points at most `U+10FFFF`. -/
def utf8Valid : List Nat → Bool
  | [] => true
  | b :: rest =>
    if b ≤ 0x7F then utf8Valid rest
    else
      match rest with
      | [] => false
      | c :: rest2 =>
        if 0xC2 ≤ b ∧ b ≤ 0xDF then contOk c && utf8Valid rest2
        else
          match rest2 with
          | [] => false
          | d :: rest3 =>
            if b = 0xE0 then
              (decide (0xA0 ≤ c ∧ c ≤ 0xBF)) && contOk d && utf8Valid rest3
            else if 0xE1 ≤ b ∧ b ≤ 0xEC then contOk c && contOk d && utf8Valid rest3
            else if b = 0xED then
              (decide (0x80 ≤ c ∧ c ≤ 0x9F)) && contOk d && utf8Valid rest3
            else if 0xEE ≤ b ∧ b ≤ 0xEF then contOk c && contOk d && utf8Valid rest3
            else
              match rest3 with
              | [] => false
              | e :: rest4 =>
                if b = 0xF0 then
                  (decide (0x90 ≤ c ∧ c ≤ 0xBF)) && contOk d && contOk e && utf8Valid rest4
                else if 0xF1 ≤ b ∧ b ≤ 0xF3 then
                  contOk c && contOk d && contOk e && utf8Valid rest4
                else if b = 0xF4 then
                  (decide (0x80 ≤ c ∧ c ≤ 0x8F)) && contOk d && contOk e && utf8Valid rest4
                else false

/-- Outcome of `deserialize`: a record, an `io::Error`, or a panic
(out-of-bounds slice index). -/
inductive DeserResult where
  | ok : Record → DeserResult
  | err : String → DeserResult
  | crash : DeserResult
deriving Repr, DecidableEq

/-- Read `k` bytes from the remaining input.  `none` models the panic of the
Rust slice `data[pos..pos + k]` when it runs past the end. -/
def readN (k : Nat) (rem : List Nat) : Option (List Nat × List Nat) :=
  if k ≤ rem.length then some (rem.take k, rem.drop k) else none

/-- Failures while parsing the symbol table: an out-of-bounds read (panic)
or invalid UTF-8 (an `io::Error`). -/
inductive SymErr where
  | eof : SymErr
  | utf8 : SymErr

/-- The symbol-table loop of `deserialize`: `n` times, read a length byte,
read that many bytes, validate UTF-8. -/
def parseSymbols : Nat → List Nat → Except SymErr (List (List Nat) × List Nat)
  | 0, rem => .ok ([], rem)
  | n + 1, rem =>
    match readN 1 rem with
    | none => .error .eof
    | some (lb, rem1) =>
      let len := lb.headD 0
      match readN len rem1 with
      | none => .error .eof
      | some (s, rem2) =>
        if utf8Valid s then
          (parseSymbols n rem2).map (fun pr => (s :: pr.1, pr.2))
        else .error .utf8

/-- The reference-frame loop of `deserialize`: `n` times, read 8 bytes and
reassemble the little-endian `f64` bit pattern. -/
def parseFrame : Nat → List Nat → Option (List Nat × List Nat)
  | 0, rem => some ([], rem)
  | n + 1, rem =>
    match readN 8 rem with
    | none => none
    | some (pb, rem1) =>
      (parseFrame n rem1).map (fun pr => (decodeLE pb :: pr.1, pr.2))

/-- The field-parsing phase of `deserialize`, run only after the overall
checksum gate has passed.  It reads from the *full* buffer (the Rust code
bounds its slices against `data.len()`, not against the start of the
trailer); `trailer` is the already-read overall CRC, stored into the
reconstructed record. -/
def parseRecord (buf : List Nat) (trailer : Nat) : DeserResult :=
  match readN 1 buf with
  | none => .crash
  | some (vb, r1) =>
    match readN 2 r1 with
    | none => .crash
    | some (nb, r2) =>
      let n := decodeLE nb
      match readN 4 r2 with
      | none => .crash
      | some (tb, r3) =>
        match readN 8 r3 with
        | none => .crash
        | some (bb, r4) =>
          match parseSymbols n r4 with
          | .error .eof => .crash
          | .error .utf8 => .err "invalid utf-8 sequence"
          | .ok (symbols, r5) =>
            match parseFrame n r5 with
            | none => .crash
            | some (reff, r6) =>
              match readN 4 r6 with
              | none => .crash
              | some (rcb, r7) =>
                match readN 4 r7 with
                | none => .crash
                | some (dcb, r8) =>
                  match readN 4 r8 with
                  | none => .crash
                  | some (clb, r9) =>
                    match readN (decodeLE clb) r9 with
                    | none => .crash
                    | some (cdata, _) =>
                      .ok
                        { version := vb.headD 0
                          symbols := symbols
                          base_ts := decodeLE bb
                          ref_frame := reff
                          data := cdata
                          num_ticks := decodeLE tb
                          ref_crc := decodeLE rcb
                          data_crc := decodeLE dcb
                          overall_crc := trailer }

/-- Rust `CompressedTimeSeries::deserialize`.  The 4-byte trailer is checked
against the CRC-32 of the preceding bytes before any field is parsed. -/
def deserialize (buf : List Nat) : DeserResult :=
  if buf.length < 4 then .err "Data too short"
  else
    let crcPos := buf.length - 4
    let trailer := decodeLE (buf.drop crcPos)
    if crc32 (buf.take crcPos) ≠ trailer then .err "Overall checksum mismatch"
    else parseRecord buf trailer

/-! ## Fixed-point instantiation of the price arithmetic

For concrete evaluations of the frame compressor the abstract price type is
instantiated with integers holding prices in tenths (`100014` stands for
`10001.4`).  On the specific inputs used below every division is exact, so
these functions compute the same values the `f64` expressions of the source
produce there. -/

/-- Round `a / b` (for `b > 0`) to the nearest integer, halves away from
zero — the rounding mode of `f64::round`. -/
def roundHalfAwayDiv (a b : Int) : Int :=
  if a ≥ 0 then (2 * a + b) / (2 * b) else -((2 * (-a) + b) / (2 * b))

/-- Models `((price - prev[idx]) / prev[idx] * 10000.0).round() as i32` on
fixed-point prices (scale independent, hence usable on tenths). -/
def deltaBpFx (price prev : Int) : Int :=
  roundHalfAwayDiv ((price - prev) * 10000) prev

/-- Models `curr[idx] * (1.0 + delta_bp as f64 / 10000.0)` on fixed-point prices
(exact whenever `10000` divides `curr * (10000 + bp)`, as at the inputs
used below). -/
def applyDeltaFx (curr : Int) (bp : Int) : Int := curr * (10000 + bp) / 10000

/-! ## Delta-codec lemmas -/

/-- Tiny frames round-trip: encoding then decoding a `Tiny v` with
`-8 ≤ v ≤ 7` recovers `v` and consumes one byte. -/
theorem tinyRound (v : Int) (h1 : -8 ≤ v) (h2 : v ≤ 7) :
    DeltaEncoding.decode ((DeltaEncoding.Tiny v).encode []) 0 = .ok (.Tiny v, 1) := by
  have hb : tu8 v &&& 15 = (v % 16).toNat := by
    rw [tu8, show (15 : Nat) = 2 ^ 4 - 1 by norm_num, Nat.and_pow_two_sub_one_eq_mod]
    omega
  have hw : (v % 16).toNat < 16 := by omega
  have hpre : (v % 16).toNat >>> 6 = 0 := by rw [Nat.shiftRight_eq_div_pow]; omega
  have hand : (v % 16).toNat &&& 15 = (v % 16).toNat := by
    rw [show (15 : Nat) = 2 ^ 4 - 1 by norm_num, Nat.and_pow_two_sub_one_eq_mod]; omega
  simp only [DeltaEncoding.encode, List.nil_append, hb]
  simp only [DeltaEncoding.decode, List.length_cons, List.length_nil, List.get, hpre, hand]
  norm_num [Except.ok.injEq, Prod.mk.injEq, DeltaEncoding.Tiny.injEq]
  split <;> omega

/-- Small frames round-trip: encoding then decoding a `Small v` with
`-8192 ≤ v ≤ 8191` recovers `v` and consumes two bytes. -/
theorem smallRound (v : Int) (h1 : -8192 ≤ v) (h2 : v ≤ 8191) :
    DeltaEncoding.decode ((DeltaEncoding.Small v).encode []) 0 = .ok (.Small v, 2) := by
  have hb0 : tu8 v &&& 63 = (v % 64).toNat := by
    rw [tu8, show (63 : Nat) = 2 ^ 6 - 1 by norm_num, Nat.and_pow_two_sub_one_eq_mod]
    omega
  have hb1 : tu8 (Int.fdiv v 64) = ((v / 64) % 256).toNat := by
    rw [tu8, Int.fdiv_eq_ediv _ (by omega)]
  have hw : (v % 64).toNat < 64 := by omega
  have hor : (64 : Nat) ||| (v % 64).toNat = 64 + (v % 64).toNat := by
    have h := Nat.mul_add_lt_is_or (i := 6) (b := (v % 64).toNat) (by omega) 1
    simpa using h.symm
  have hpre : (64 + (v % 64).toNat) >>> 6 = 1 := by
    rw [Nat.shiftRight_eq_div_pow]; omega
  have hl : (64 + (v % 64).toNat) &&& 63 = (v % 64).toNat := by
    rw [show (63 : Nat) = 2 ^ 6 - 1 by norm_num, Nat.and_pow_two_sub_one_eq_mod]; omega
  have hor2 : ((v / 64) % 256).toNat <<< 6 ||| (v % 64).toNat
      = 64 * ((v / 64) % 256).toNat + (v % 64).toNat := by
    rw [Nat.shiftLeft_eq]
    have h := Nat.mul_add_lt_is_or (i := 6) (b := (v % 64).toNat) (by omega)
      (((v / 64) % 256).toNat)
    rw [show ((v / 64) % 256).toNat * 2 ^ 6 = 2 ^ 6 * ((v / 64) % 256).toNat by ring]
    rw [← h]
  simp only [DeltaEncoding.encode, List.nil_append, hb0, hb1, hor]
  simp only [DeltaEncoding.decode, List.length_cons, List.length_nil, List.get, hpre, hl, hor2]
  norm_num [Except.ok.injEq, Prod.mk.injEq, DeltaEncoding.Small.injEq]
  split <;> omega

/-- Large frames round-trip: encoding then decoding a `Large v` for any
`i32` value `v` recovers `v` and consumes five bytes. -/
theorem largeRound (v : Int) (h1 : -(2 ^ 31) ≤ v) (h2 : v < 2 ^ 31) :
    DeltaEncoding.decode ((DeltaEncoding.Large v).encode []) 0 = .ok (.Large v, 5) := by
  have hu : (v % 2 ^ 32).toNat < 2 ^ 32 := by omega
  have hpre : (0b11000000 : Nat) >>> 6 = 3 := by decide
  simp only [DeltaEncoding.encode, List.nil_append]
  simp only [DeltaEncoding.decode, List.length_cons, leBytes_length, List.get, hpre]
  norm_num [Except.ok.injEq, Prod.mk.injEq, DeltaEncoding.Large.injEq]
  rw [List.take_of_length_le (by simp), decodeLE_leBytes _ _ (by norm_num at hu ⊢; omega)]
  rw [sign32]
  split <;> omega

theorem fromBasis_tiny (bp : Int) (h1 : -8 ≤ bp) (h2 : bp ≤ 7) :
    fromBasis bp = .ok (.Tiny bp) := by
  rw [fromBasis, if_pos ⟨h1, h2⟩]

theorem fromBasis_small (bp : Int) (h : -8192 ≤ bp ∧ bp ≤ 8191)
    (hn : ¬(-8 ≤ bp ∧ bp ≤ 7)) : fromBasis bp = .ok (.Small bp) := by
  rw [fromBasis, if_neg hn, if_pos h]

theorem fromBasis_large (bp : Int) (hn : ¬(-8192 ≤ bp ∧ bp ≤ 8191))
    (h : bp ≤ 2 ^ 31 - 1) : fromBasis bp = .ok (.Large bp) := by
  rw [fromBasis, if_neg (by omega), if_neg hn, if_pos h]

/-! ## Claim C3 -/

/-- C3: for every `i32` basis-point value `bp`, `from_basis` selects the
narrowest variant that fits (`Tiny` for `-8..7`, `Small` for `-8192..8191`,
`Large` otherwise), and decoding the bytes produced by
`encode(from_basis(bp))` from position 0 consumes exactly the variant's
byte count (1, 2 or 5) and recovers a frame whose `to_basis` equals `bp`. -/
theorem C3_from_basis_encode_decode_roundtrip (bp : Int)
    (h1 : -(2 ^ 31) ≤ bp) (h2 : bp < 2 ^ 31) :
    ∃ d d' : DeltaEncoding,
      fromBasis bp = .ok d ∧
      ((-8 ≤ bp ∧ bp ≤ 7) → d = .Tiny bp) ∧
      (¬(-8 ≤ bp ∧ bp ≤ 7) → (-8192 ≤ bp ∧ bp ≤ 8191) → d = .Small bp) ∧
      (¬(-8192 ≤ bp ∧ bp ≤ 8191) → d = .Large bp) ∧
      (d.encode []).length = d.byteCount ∧
      DeltaEncoding.decode (d.encode []) 0 = .ok (d', d.byteCount) ∧
      d'.toBasis = bp := by
  by_cases ht : -8 ≤ bp ∧ bp ≤ 7
  · refine ⟨.Tiny bp, .Tiny bp, fromBasis_tiny bp ht.1 ht.2, fun _ => rfl,
      fun hn _ => absurd ht hn, fun hn => absurd ⟨by omega, by omega⟩ hn, ?_, ?_, rfl⟩
    · simp [DeltaEncoding.encode, DeltaEncoding.byteCount]
    · exact tinyRound bp ht.1 ht.2
  · by_cases hs : -8192 ≤ bp ∧ bp ≤ 8191
    · refine ⟨.Small bp, .Small bp, fromBasis_small bp hs ht, fun h => absurd h ht,
        fun _ _ => rfl, fun hn => absurd hs hn, ?_, ?_, rfl⟩
      · simp [DeltaEncoding.encode, DeltaEncoding.byteCount]
      · exact smallRound bp hs.1 hs.2
    · refine ⟨.Large bp, .Large bp, fromBasis_large bp hs (by omega), fun h => absurd h ht,
        fun _ h => absurd h hs, fun _ => rfl, ?_, ?_, rfl⟩
      · simp [DeltaEncoding.encode, DeltaEncoding.byteCount, leBytes_length]
      · exact largeRound bp h1 h2

/-- Witness for C3 at the concrete basis-point value 50 (a `Small` frame). -/
theorem C3_witness :
    (-(2 ^ 31) ≤ (50 : Int)) ∧ ((50 : Int) < 2 ^ 31) ∧
    (∃ d d' : DeltaEncoding,
      fromBasis 50 = .ok d ∧
      ((-8 ≤ (50 : Int) ∧ (50 : Int) ≤ 7) → d = .Tiny 50) ∧
      (¬(-8 ≤ (50 : Int) ∧ (50 : Int) ≤ 7) → (-8192 ≤ (50 : Int) ∧ (50 : Int) ≤ 8191) →
        d = .Small 50) ∧
      (¬(-8192 ≤ (50 : Int) ∧ (50 : Int) ≤ 8191) → d = .Large 50) ∧
      (d.encode []).length = d.byteCount ∧
      DeltaEncoding.decode (d.encode []) 0 = .ok (d', d.byteCount) ∧
      d'.toBasis = 50) :=
  ⟨by norm_num, by norm_num,
    C3_from_basis_encode_decode_roundtrip 50 (by norm_num) (by norm_num)⟩

/-! ## Claim C6 -/

/-- C6 counterexample: a Large frame whose 1 tag byte plus 4 data bytes end
exactly at the end of the buffer (5 bytes remaining at the cursor) is *not*
rejected; `decode` succeeds and returns the value, consuming all 5 bytes. -/
theorem C6_counterexample_large_frame_at_exact_end :
    DeltaEncoding.decode [0xC0, 42, 0, 0, 0] 0 = .ok (.Large 42, 5) := by decide

/-- C6 (amended): the source's Large-variant underrun test
`pos + 4 >= buf.len()` is equivalent over integers to the correct test
`pos + 5 > buf.len()`: when at least 5 bytes remain at the cursor (in
particular when the frame ends exactly at the end of the buffer) `decode`
returns the Large value and consumes 5 bytes, and it returns a
buffer-underrun error exactly when fewer than 5 bytes remain. -/
theorem C6_amended_large_bounds_check (buf : List Nat) (pos : Nat)
    (h : pos < buf.length) (hpre : 2 ≤ buf.getD pos 0 >>> 6) :
    (pos + 5 ≤ buf.length →
      DeltaEncoding.decode buf pos =
        .ok (.Large (sign32 (decodeLE ((buf.drop (pos + 1)).take 4))), pos + 5)) ∧
    (buf.length < pos + 5 →
      DeltaEncoding.decode buf pos = .error "Buffer underrun") := by
  have hget : buf.get ⟨pos, h⟩ = buf.getD pos 0 := by
    simp [List.getD_eq_getElem?_getD, List.getElem?_eq_getElem h]
  have hp0 : ¬ (buf.getD pos 0 >>> 6 = 0) := by omega
  have hp1 : ¬ (buf.getD pos 0 >>> 6 = 1) := by omega
  constructor
  · intro h5
    simp only [DeltaEncoding.decode]
    rw [dif_neg (by omega : ¬ pos ≥ buf.length)]
    simp only [hget, hp0, hp1, if_false]
    rw [dif_neg (by omega : ¬ pos + 4 ≥ buf.length)]
  · intro h5
    simp only [DeltaEncoding.decode]
    rw [dif_neg (by omega : ¬ pos ≥ buf.length)]
    simp only [hget, hp0, hp1, if_false]
    rw [dif_pos (by omega : pos + 4 ≥ buf.length)]

/-- Witness for the amended C6 on a concrete 5-byte buffer holding a single
Large frame that ends exactly at the end of the buffer. -/
theorem C6_witness :
    (0 < [0xC0, 1, 2, 3, 4].length) ∧
    (2 ≤ [0xC0, 1, 2, 3, 4].getD 0 0 >>> 6) ∧
    DeltaEncoding.decode [0xC0, 1, 2, 3, 4] 0 =
      .ok (.Large (sign32 (decodeLE (([0xC0, 1, 2, 3, 4].drop 1).take 4))), 0 + 5) :=
  ⟨by decide, by decide,
    (C6_amended_large_bounds_check [0xC0, 1, 2, 3, 4] 0 (by decide) (by decide)).1
      (by decide)⟩

/-! ## Claim C9 -/

/-- C9: `Crc32::checksum` implements the reflected IEEE CRC-32: the table is
built from polynomial `0xEDB88320` by eight shift-xor steps per entry, the
register starts at `0xFFFFFFFF`, each byte indexes the table by
`(crc ^ byte) & 0xFF` with `crc = (crc >> 8) ^ table[idx]`, the bitwise NOT
of the register is returned, and `checksum([0xC0, 0xFF, 0xEE]) = 0xBA787D5F`. -/
theorem C9_crc32_algorithm_and_test_vector :
    (∀ data : List Nat, crc32 data = (data.foldl crcUpdate 0xFFFFFFFF) ^^^ 0xFFFFFFFF) ∧
    (∀ c b : Nat, crcUpdate c b = (c >>> 8) ^^^ crcTable ((c ^^^ b) &&& 0xFF)) ∧
    (∀ i : Nat, crcTable i = crcStep^[8] i) ∧
    (∀ c : Nat, crcStep c = if c % 2 = 1 then (c / 2) ^^^ 0xEDB88320 else c / 2) ∧
    crc32 [0xC0, 0xFF, 0xEE] = 0xBA787D5F :=
  ⟨fun _ => rfl, fun _ _ => rfl, fun _ => rfl, fun _ => rfl, by decide⟩

/-! ## Claim C10 -/

/-- C10: `DeltaEncoding::from_basis` is total despite its `io::Result`
signature: for every `i32` input it returns `Ok`, because the final guard
`bp <= i32::MAX` always holds, so the error branch is unreachable. -/
theorem C10_from_basis_total (bp : Int) (h1 : -(2 ^ 31) ≤ bp) (h2 : bp < 2 ^ 31) :
    ∃ d, fromBasis bp = .ok d := by
  rw [fromBasis]
  split_ifs with a b c
  · exact ⟨_, rfl⟩
  · exact ⟨_, rfl⟩
  · exact ⟨_, rfl⟩
  · exact absurd (by omega : bp ≤ 2 ^ 31 - 1) c

/-- Witness for C10 at the concrete value 123456 (a `Large` frame). -/
theorem C10_witness :
    (-(2 ^ 31) ≤ (123456 : Int)) ∧ ((123456 : Int) < 2 ^ 31) ∧
    ∃ d, fromBasis 123456 = .ok d :=
  ⟨by norm_num, by norm_num, C10_from_basis_total 123456 (by norm_num) (by norm_num)⟩

/-! ## CRC register range -/

theorem crcStep_lt {c : Nat} (h : c < 2 ^ 32) : crcStep c < 2 ^ 32 := by
  rw [crcStep]
  split
  · exact Nat.xor_lt_two_pow (by omega) (by norm_num [POLY])
  · omega

theorem iterate_crcStep_lt (n : Nat) {c : Nat} (h : c < 2 ^ 32) :
    crcStep^[n] c < 2 ^ 32 := by
  induction n generalizing c with
  | zero => simpa using h
  | succ n ih =>
    rw [Function.iterate_succ_apply]
    exact ih (crcStep_lt h)

theorem crcTable_lt (i : Nat) (h : i < 2 ^ 32) : crcTable i < 2 ^ 32 :=
  iterate_crcStep_lt 8 h

theorem crcUpdate_lt {c : Nat} (b : Nat) (h : c < 2 ^ 32) :
    crcUpdate c b < 2 ^ 32 := by
  rw [crcUpdate]
  refine Nat.xor_lt_two_pow ?_ (crcTable_lt _ ?_)
  · calc c >>> 8 = c / 2 ^ 8 := Nat.shiftRight_eq_div_pow c 8
      _ ≤ c := Nat.div_le_self _ _
      _ < 2 ^ 32 := h
  · calc (c ^^^ b) &&& 0xFF ≤ 0xFF := Nat.and_le_right
      _ < 2 ^ 32 := by norm_num

theorem foldl_crcUpdate_lt (l : List Nat) {c : Nat} (h : c < 2 ^ 32) :
    l.foldl crcUpdate c < 2 ^ 32 := by
  induction l generalizing c with
  | nil => simpa using h
  | cons b t ih => exact ih (crcUpdate_lt b h)

theorem crc32_lt (l : List Nat) : crc32 l < 2 ^ 32 := by
  rw [crc32]
  exact Nat.xor_lt_two_pow (foldl_crcUpdate_lt l (by norm_num)) (by norm_num)

/-! ## Parsing round-trip lemmas -/

theorem readN_append (a b : List Nat) : readN a.length (a ++ b) = some (a, b) := by
  rw [readN, if_pos (by simp)]
  rw [List.take_left, List.drop_left]

theorem readN_append' (k : Nat) (a b : List Nat) (h : a.length = k) :
    readN k (a ++ b) = some (a, b) := by
  subst h; exact readN_append a b

theorem readN_leBytes (k v : Nat) (rest : List Nat) :
    readN k (leBytes k v ++ rest) = some (leBytes k v, rest) :=
  readN_append' k _ rest (leBytes_length k v)

theorem readN_cons (x : Nat) (rest : List Nat) :
    readN 1 (x :: rest) = some ([x], rest) :=
  readN_append' 1 [x] rest rfl

/-- Parsing back the symbol dictionary that `serialize` wrote. -/
theorem parseSymbols_encode (syms : List (List Nat))
    (h : ∀ s ∈ syms, s.length ≤ 255 ∧ utf8Valid s = true) :
    ∀ rest, parseSymbols syms.length
      (syms.flatMap (fun s => (s.length % 256) :: s) ++ rest) = .ok (syms, rest) := by
  induction syms with
  | nil => intro rest; simp [parseSymbols]
  | cons s tail ih =>
    intro rest
    have hs := h s (by simp)
    have hlen : s.length % 256 = s.length := Nat.mod_eq_of_lt (by omega)
    rw [List.length_cons, List.flatMap_cons, parseSymbols]
    rw [List.append_assoc, List.cons_append]
    simp only [readN_cons, List.headD_cons, hlen, readN_append, hs.2, if_true,
      ih (fun x hx => h x (by simp [hx])) rest, Except.map]

/-- Parsing back the reference frame that `serialize` wrote. -/
theorem parseFrame_encode (frame : List Nat)
    (h : ∀ p ∈ frame, p < 2 ^ 64) :
    ∀ rest, parseFrame frame.length
      (frame.flatMap (fun p => leBytes 8 p) ++ rest) = some (frame, rest) := by
  induction frame with
  | nil => intro rest; simp [parseFrame]
  | cons p tail ih =>
    intro rest
    have hp : p < 256 ^ 8 := by
      have := h p (by simp)
      norm_num at this ⊢
      omega
    rw [List.length_cons, List.flatMap_cons, parseFrame]
    rw [List.append_assoc]
    simp only [readN_leBytes, ih (fun x hx => h x (by simp [hx])) rest,
      decodeLE_leBytes 8 p hp]
    rfl

/-- The checksum gate of `deserialize` accepts a freshly serialized blob
(the trailer is by construction the CRC-32 of the preceding bytes) and
hands the buffer to the field parser. -/
theorem deserialize_serialized (body : List Nat) :
    deserialize (body ++ leBytes 4 (crc32 body)) =
      parseRecord (body ++ leBytes 4 (crc32 body)) (crc32 body) := by
  have h1 : (body ++ leBytes 4 (crc32 body)).length - 4 = body.length := by simp
  have hnl : ¬ ((body ++ leBytes 4 (crc32 body)).length < 4) := by simp
  have hdrop : List.drop body.length (body ++ leBytes 4 (crc32 body))
      = leBytes 4 (crc32 body) := List.drop_left _ _
  have htake : List.take body.length (body ++ leBytes 4 (crc32 body)) = body :=
    List.take_left _ _
  have hc : decodeLE (leBytes 4 (crc32 body)) = crc32 body :=
    decodeLE_leBytes _ _ (by have := crc32_lt body; norm_num at this ⊢; omega)
  rw [deserialize, if_neg hnl]
  simp only [h1, hdrop, htake, hc, ne_eq, not_true_eq_false, if_false]

/-! ## Claim C2 -/

/-- C2: for every record within the dictionary limits (at most 65,535
symbols of at most 255 UTF-8 bytes each, as `compress` produces from a
valid series), `deserialize(serialize(r))` succeeds and yields a record
equal to `r` in every field except `overall_crc`, which is 0 in `r`
pre-serialize and is populated from the trailer (the CRC-32 of the body)
in the deserialized record. -/
theorem C2_serialize_deserialize_roundtrip (r : Record)
    (hsyms : r.symbols.length ≤ 65535)
    (hsym : ∀ s ∈ r.symbols, s.length ≤ 255 ∧ utf8Valid s = true)
    (hts : r.base_ts < 2 ^ 64)
    (hnum : r.num_ticks < 2 ^ 32)
    (href : ∀ p ∈ r.ref_frame, p < 2 ^ 64)
    (hlen : r.ref_frame.length = r.symbols.length)
    (hrc : r.ref_crc < 2 ^ 32)
    (hdc : r.data_crc < 2 ^ 32)
    (hdl : r.data.length < 2 ^ 32) :
    deserialize (serialize r) =
      .ok { r with overall_crc := crc32 (serializeBody r) } := by
  rw [serialize, deserialize_serialized]
  have hm16 : r.symbols.length % 2 ^ 16 = r.symbols.length := Nat.mod_eq_of_lt (by omega)
  have hm32 : r.data.length % 2 ^ 32 = r.data.length := Nat.mod_eq_of_lt (by omega)
  have hsympars := parseSymbols_encode r.symbols hsym
  have hfp := parseFrame_encode r.ref_frame href
  rw [hlen] at hfp
  have hd2 : decodeLE (leBytes 2 r.symbols.length) = r.symbols.length :=
    decodeLE_leBytes _ _ (by norm_num; omega)
  have hd4n : decodeLE (leBytes 4 r.num_ticks) = r.num_ticks :=
    decodeLE_leBytes _ _ (by norm_num; omega)
  have hd8 : decodeLE (leBytes 8 r.base_ts) = r.base_ts :=
    decodeLE_leBytes _ _ (by norm_num; omega)
  have hdrc : decodeLE (leBytes 4 r.ref_crc) = r.ref_crc :=
    decodeLE_leBytes _ _ (by norm_num; omega)
  have hddc : decodeLE (leBytes 4 r.data_crc) = r.data_crc :=
    decodeLE_leBytes _ _ (by norm_num; omega)
  have hdlen : decodeLE (leBytes 4 r.data.length) = r.data.length :=
    decodeLE_leBytes _ _ (by norm_num; omega)
  simp only [serializeBody, hm16, hm32, List.append_assoc, List.cons_append,
    List.nil_append]
  simp only [parseRecord, readN_cons, List.headD_cons, readN_leBytes, hd2, hd4n, hd8,
    hsympars, hfp, hdrc, hddc, hdlen, readN_append]

/-- Concrete record used to witness C2: one ASCII symbol `"A"`, one
reference price bit pattern, a one-byte payload. -/
def recC2 : Record :=
  { version := 1
    symbols := [[65]]
    base_ts := 1000
    ref_frame := [7]
    data := [9]
    num_ticks := 1
    ref_crc := 5
    data_crc := 6
    overall_crc := 0 }

/-- Witness for C2 at `recC2`. -/
theorem C2_witness :
    (recC2.symbols.length ≤ 65535) ∧
    (∀ s ∈ recC2.symbols, s.length ≤ 255 ∧ utf8Valid s = true) ∧
    (recC2.base_ts < 2 ^ 64) ∧
    (recC2.num_ticks < 2 ^ 32) ∧
    (∀ p ∈ recC2.ref_frame, p < 2 ^ 64) ∧
    (recC2.ref_frame.length = recC2.symbols.length) ∧
    (recC2.ref_crc < 2 ^ 32) ∧
    (recC2.data_crc < 2 ^ 32) ∧
    (recC2.data.length < 2 ^ 32) ∧
    deserialize (serialize recC2) =
      .ok { recC2 with overall_crc := crc32 (serializeBody recC2) } :=
  ⟨by decide, by decide, by decide, by decide, by decide, by decide, by decide,
    by decide, by decide,
    C2_serialize_deserialize_roundtrip recC2 (by decide) (by decide) (by decide)
      (by decide) (by decide) (by decide) (by decide) (by decide) (by decide)⟩

/-! ## Claim C7 -/

/-- C7 (code bug): the four-byte input `[0, 0, 0, 0]` is exactly the CRC-32
trailer of the empty prefix (`crc32 [] = 0`), so the overall checksum gate
passes; parsing then reads the 4-byte `num_ticks` field at offset 3 of a
4-byte buffer, an out-of-bounds slice — a Rust panic, not the truncated
error the claim requires. -/
theorem C7_deserialize_crash_on_crc_valid_truncated_input :
    deserialize [0, 0, 0, 0] = .crash := by decide

/-! ## Claim C4 -/

/-- The record produced by `compress` on the C4 failing input: two symbols
`A` (index 0) and `B` (index 1), one later tick whose price map iterates
`B` before `A`.  `B`'s basis-point delta is 2 and `A`'s is 1, and the
payload carries the Tiny frames as `..., 2, 1` — `B`'s frame first. -/
def recC4 : TSRecord Int :=
  { version := 1
    symbols := ["A", "B"]
    base_ts := 1000
    ref_frame := [100000, 200000]
    data := [1, 0, 0, 0, 3, 2, 1]
    num_ticks := 2
    ref_crc := crc32 (List.replicate 16 0)
    data_crc := crc32 [1, 0, 0, 0, 3, 2, 1] }

/-- C4 (code bug): `compress` appends delta frames in the price map's
iteration order, not in ascending symbol-index order.  With the second
tick's map iterating `B` (index 1, delta 2 bp) before `A` (index 0, delta
1 bp), the emitted tick record is `[ts 1,0,0,0; bitmap 3; frames 2, 1]` —
the index-1 frame precedes the index-0 frame.  `decompress`, which consumes
frames in ascending index order, therefore applies `B`'s delta to `A` and
vice versa: it returns `A = 10002.0, B = 20002.0` for a tick that was
compressed from `A = 10001.0, B = 20004.0` (prices in fixed-point tenths). -/
theorem C4_delta_frames_follow_map_iteration_order :
    compress deltaBpFx (fun _ => (0 : Nat)) (0 : Int)
      [⟨1000, [("A", 100000), ("B", 200000)]⟩, ⟨1001, [("B", 200040), ("A", 100010)]⟩]
      = .ok recC4 ∧
    decompress applyDeltaFx (fun _ => (0 : Nat)) (0 : Int) recC4
      = .ok [⟨1000, [("A", 100000), ("B", 200000)]⟩,
             ⟨1001, [("A", 100020), ("B", 200020)]⟩] := by
  constructor
  · decide
  · decide

/-! ## Claim C5 -/

/-- C5 (code bug): after encoding a tick, the encoder's rolling `prev`
vector holds the *raw* input price, not the decoder's lossy reconstruction.
One symbol at 10000.0, next tick 10001.4 (fixed-point tenths): the delta is
`round(1.4) = 1` bp, the decoder reconstructs
`10000.0 * (1 + 1/10000) = 10001.0`, but the encoder's `prev` becomes
`10001.4 ≠ 10001.0`, so encoder and decoder state diverge. -/
theorem C5_encoder_prev_keeps_raw_price :
    (encodeTick deltaBpFx (0 : Int) ["A"] 1000 [100000] ⟨1001, [("A", 100014)]⟩).1
      = [100014] ∧
    deltaBpFx 100014 100000 = 1 ∧
    applyDeltaFx 100000 1 = 100010 ∧
    (100014 : Int) ≠ 100010 := by
  refine ⟨by decide, by decide, by decide, by decide⟩

/-! ## Claim C8 -/


/-! GF(2)-linearity of the CRC step -/

theorem xor_mod_two (a b : Nat) : (a ^^^ b) % 2 = (a % 2) ^^^ (b % 2) := by
  rw [← Nat.and_one_is_mod, ← Nat.and_one_is_mod, ← Nat.and_one_is_mod,
    Nat.and_xor_distrib_right]

theorem xor_div_two (a b : Nat) : (a ^^^ b) / 2 = a / 2 ^^^ b / 2 := by
  have h : ∀ x : Nat, x / 2 = x >>> 1 := by
    intro x; rw [Nat.shiftRight_eq_div_pow]
  rw [h, h, h]
  apply Nat.eq_of_testBit_eq
  intro i
  simp [Nat.testBit_shiftRight, Nat.testBit_xor]

theorem xor_shiftRight (a b k : Nat) : (a ^^^ b) >>> k = (a >>> k) ^^^ (b >>> k) := by
  apply Nat.eq_of_testBit_eq
  intro i
  simp [Nat.testBit_shiftRight, Nat.testBit_xor]

theorem xor_cancel_right (x y p : Nat) : (x ^^^ p) ^^^ (y ^^^ p) = x ^^^ y := by
  rw [Nat.xor_comm y p, ← Nat.xor_assoc, Nat.xor_assoc x p p, Nat.xor_self,
    Nat.xor_zero]

theorem xor_left_comm (a b c : Nat) : a ^^^ (b ^^^ c) = b ^^^ (a ^^^ c) := by
  rw [← Nat.xor_assoc, Nat.xor_comm a b, Nat.xor_assoc]

theorem crcStep_xor (a b : Nat) : crcStep (a ^^^ b) = crcStep a ^^^ crcStep b := by
  rcases Nat.mod_two_eq_zero_or_one a with pa | pa <;>
    rcases Nat.mod_two_eq_zero_or_one b with pb | pb <;>
      simp only [crcStep, xor_mod_two, pa, pb, xor_div_two] <;> norm_num <;>
        simp [Nat.xor_assoc, Nat.xor_comm, xor_left_comm, Nat.xor_self, Nat.xor_zero]
  rw [← Nat.xor_assoc, Nat.xor_self, Nat.zero_xor]

theorem iterate_crcStep_xor (n a b : Nat) :
    crcStep^[n] (a ^^^ b) = crcStep^[n] a ^^^ crcStep^[n] b := by
  induction n generalizing a b with
  | zero => simp
  | succ n ih =>
    rw [Function.iterate_succ_apply, Function.iterate_succ_apply,
      Function.iterate_succ_apply, crcStep_xor, ih]

theorem byte_decomp (x : Nat) : x = ((x >>> 8) <<< 8) ^^^ (x &&& 255) := by
  rw [show (255 : Nat) = 2 ^ 8 - 1 by norm_num]
  apply Nat.eq_of_testBit_eq
  intro i
  rw [Nat.testBit_xor, Nat.testBit_shiftLeft, Nat.testBit_and,
    Nat.testBit_two_pow_sub_one, Nat.testBit_shiftRight]
  rcases Nat.lt_or_ge i 8 with h | h
  · simp [show ¬ (8 ≤ i) by omega, h]
  · have h8 : 8 + (i - 8) = i := by omega
    rw [h8]
    simp [h, show ¬ (i < 8) by omega]

theorem crcStep_two_mul (m : Nat) : crcStep (2 * m) = m := by
  rw [crcStep, if_neg (by omega : ¬ (2 * m) % 2 = 1)]
  omega

theorem iterate_crcStep_mul_pow (k : Nat) : ∀ m, crcStep^[k] (m * 2 ^ k) = m := by
  induction k with
  | zero => intro m; simp
  | succ k ih =>
    intro m
    rw [Function.iterate_succ_apply, show m * 2 ^ (k + 1) = 2 * (m * 2 ^ k) by ring,
      crcStep_two_mul, ih]

theorem crcUpdate_eq_iterate (c b : Nat) (hb : b < 256) :
    crcUpdate c b = crcStep^[8] (c ^^^ b) := by
  conv_rhs => rw [byte_decomp (c ^^^ b)]
  rw [iterate_crcStep_xor, Nat.shiftLeft_eq, iterate_crcStep_mul_pow]
  rw [xor_shiftRight, show b >>> 8 = 0 by
    rw [Nat.shiftRight_eq_div_pow]; exact Nat.div_eq_of_lt (by norm_num; omega)]
  rw [Nat.xor_zero, crcUpdate]
  rfl

/-! Injectivity of the CRC state update -/

theorem crcStep_inj {a b : Nat} (ha : a < 2 ^ 32) (hb : b < 2 ^ 32)
    (h : crcStep a = crcStep b) : a = b := by
  have hpoly : Nat.testBit POLY 31 = true := by decide
  rcases Nat.mod_two_eq_zero_or_one a with pa | pa <;>
    rcases Nat.mod_two_eq_zero_or_one b with pb | pb
  · simp only [crcStep, pa, pb] at h
    norm_num at h
    omega
  · simp only [crcStep, pa, pb] at h
    norm_num at h
    exfalso
    have h1 : Nat.testBit (a / 2) 31 = false :=
      Nat.testBit_lt_two_pow (by omega)
    have h2 : Nat.testBit (b / 2 ^^^ POLY) 31 = true := by
      rw [Nat.testBit_xor, Nat.testBit_lt_two_pow (x := b / 2) (by omega), hpoly]
      rfl
    rw [h] at h1
    rw [h1] at h2
    exact Bool.false_ne_true h2
  · simp only [crcStep, pa, pb] at h
    norm_num at h
    exfalso
    have h1 : Nat.testBit (b / 2) 31 = false :=
      Nat.testBit_lt_two_pow (by omega)
    have h2 : Nat.testBit (a / 2 ^^^ POLY) 31 = true := by
      rw [Nat.testBit_xor, Nat.testBit_lt_two_pow (x := a / 2) (by omega), hpoly]
      rfl
    rw [← h] at h1
    rw [h1] at h2
    exact Bool.false_ne_true h2
  · simp only [crcStep, pa, pb] at h
    norm_num at h
    have := congrArg (fun x => x ^^^ POLY) h
    simp only [Nat.xor_assoc, Nat.xor_self, Nat.xor_zero] at this
    omega

theorem iterate_crcStep_inj (n : Nat) {a b : Nat} (ha : a < 2 ^ 32)
    (hb : b < 2 ^ 32) (h : crcStep^[n] a = crcStep^[n] b) : a = b := by
  induction n generalizing a b with
  | zero => simpa using h
  | succ n ih =>
    rw [Function.iterate_succ_apply, Function.iterate_succ_apply] at h
    exact crcStep_inj ha hb (ih (crcStep_lt ha) (crcStep_lt hb) h)

theorem crcUpdate_inj {c1 c2 b : Nat} (h1 : c1 < 2 ^ 32) (h2 : c2 < 2 ^ 32)
    (hb : b < 256) (h : crcUpdate c1 b = crcUpdate c2 b) : c1 = c2 := by
  rw [crcUpdate_eq_iterate c1 b hb, crcUpdate_eq_iterate c2 b hb] at h
  have := iterate_crcStep_inj 8
    (Nat.xor_lt_two_pow h1 (by norm_num; omega))
    (Nat.xor_lt_two_pow h2 (by norm_num; omega)) h
  have := congrArg (fun x => x ^^^ b) this
  simpa [Nat.xor_assoc] using this

theorem crcUpdate_ne {c b1 b2 : Nat} (hc : c < 2 ^ 32) (hb1 : b1 < 256)
    (hb2 : b2 < 256) (hne : b1 ≠ b2) : crcUpdate c b1 ≠ crcUpdate c b2 := by
  intro h
  rw [crcUpdate_eq_iterate c b1 hb1, crcUpdate_eq_iterate c b2 hb2] at h
  have := iterate_crcStep_inj 8
    (Nat.xor_lt_two_pow hc (by norm_num; omega))
    (Nat.xor_lt_two_pow hc (by norm_num; omega)) h
  have := congrArg (fun x => x ^^^ c) this
  simp only [Nat.xor_comm c, Nat.xor_assoc, Nat.xor_self, Nat.xor_zero] at this
  exact hne this

theorem foldl_crcUpdate_inj (l : List Nat) :
    ∀ {c1 c2 : Nat}, c1 < 2 ^ 32 → c2 < 2 ^ 32 → (∀ b ∈ l, b < 256) →
      l.foldl crcUpdate c1 = l.foldl crcUpdate c2 → c1 = c2 := by
  induction l with
  | nil => intro c1 c2 _ _ _ h; simpa using h
  | cons b t ih =>
    intro c1 c2 h1 h2 hb h
    simp only [List.foldl_cons] at h
    have hbb : b < 256 := hb b (by simp)
    have := ih (crcUpdate_lt b h1) (crcUpdate_lt b h2)
      (fun x hx => hb x (by simp [hx])) h
    exact crcUpdate_inj h1 h2 hbb this

/-- CRC-32 detects any single-byte difference. -/
theorem crc32_ne_single_diff (pre suf : List Nat) (b1 b2 : Nat)
    (hsuf : ∀ x ∈ suf, x < 256)
    (hb1 : b1 < 256) (hb2 : b2 < 256) (hne : b1 ≠ b2) :
    crc32 (pre ++ b1 :: suf) ≠ crc32 (pre ++ b2 :: suf) := by
  intro h
  rw [crc32, crc32] at h
  have hfold : (pre ++ b1 :: suf).foldl crcUpdate 0xFFFFFFFF =
      (pre ++ b2 :: suf).foldl crcUpdate 0xFFFFFFFF := by
    have := congrArg (fun x => x ^^^ 0xFFFFFFFF) h
    simpa [Nat.xor_assoc] using this
  rw [List.foldl_append, List.foldl_append, List.foldl_cons, List.foldl_cons] at hfold
  have hc : pre.foldl crcUpdate 0xFFFFFFFF < 2 ^ 32 :=
    foldl_crcUpdate_lt pre (by norm_num)
  have := foldl_crcUpdate_inj suf (crcUpdate_lt _ hc) (crcUpdate_lt _ hc) hsuf hfold
  exact crcUpdate_ne hc hb1 hb2 hne this



/-- Flip bit `k` of byte `j` of a byte string. -/
def flipBit (l : List Nat) (j k : Nat) : List Nat :=
  l.set j ((l.getD j 0) ^^^ (1 <<< k))

theorem serializeBody_bytes_lt (r : Record) (hver : r.version < 256)
    (hsym : ∀ s ∈ r.symbols, ∀ x ∈ s, x < 256)
    (hdata : ∀ x ∈ r.data, x < 256) :
    ∀ x ∈ serializeBody r, x < 256 := by
  intro x hx
  simp only [serializeBody, List.mem_append, List.mem_cons, List.mem_flatMap] at hx
  rcases hx with ((((((((h | h) | h) | h) | h) | h) | h) | h) | h) | h
  · rcases h with h | h
    · omega
    · simp at h
  · exact leBytes_lt _ _ x h
  · exact leBytes_lt _ _ x h
  · exact leBytes_lt _ _ x h
  · rcases h with ⟨s, hs, hxs⟩
    rcases hxs with h | h
    · omega
    · exact hsym s hs x h
  · rcases h with ⟨p, _, hxp⟩
    exact leBytes_lt _ _ x hxp
  · exact leBytes_lt _ _ x h
  · exact leBytes_lt _ _ x h
  · exact leBytes_lt _ _ x h
  · exact hdata x h

/-- C8: integrity detection.  For every record whose byte-valued fields are
bytes (as `compress` produces) and blob `b = serialize r`, flipping any
single bit of `b` — any byte position `j`, any bit `k < 8`, covering both
the body and the 4-byte trailer — makes `deserialize` fail with the
overall-checksum-mismatch error (so a fortiori `deserialize` or `decompress`
fails).  The trailer CRC is compared against the CRC-32 of the preceding
bytes before any field is parsed: a body flip changes that CRC (CRC-32
detects every single-bit error), a trailer flip changes the stored value. -/
theorem C8_bit_flip_detected (r : Record) (j k : Nat)
    (hver : r.version < 256)
    (hsym : ∀ s ∈ r.symbols, ∀ x ∈ s, x < 256)
    (hdata : ∀ x ∈ r.data, x < 256)
    (hj : j < (serialize r).length) (hk : k < 8) :
    deserialize (flipBit (serialize r) j k) = .err "Overall checksum mismatch" := by
  set body := serializeBody r with hbody
  set c := crc32 body with hc
  have hbytes : ∀ x ∈ body, x < 256 := serializeBody_bytes_lt r hver hsym hdata
  have htrail : ∀ x ∈ leBytes 4 c, x < 256 := leBytes_lt 4 c
  have hser : serialize r = body ++ leBytes 4 c := rfl
  have hserlen : (serialize r).length = body.length + 4 := by
    rw [hser]; simp
  have hclt : c < 256 ^ 4 := by
    have := crc32_lt body
    rw [hc]
    norm_num at this ⊢
    omega
  have hdec : decodeLE (leBytes 4 c) = c := decodeLE_leBytes 4 c hclt
  -- the flipped byte
  have hmask : (1 <<< k) < 256 := by
    rw [Nat.shiftLeft_eq]
    norm_num
    calc 2 ^ k ≤ 2 ^ 7 := Nat.pow_le_pow_right (by norm_num) (by omega)
      _ < 256 := by norm_num
  have hmaskne : (1 <<< k) ≠ 0 := by
    rw [Nat.shiftLeft_eq]
    positivity
  rcases Nat.lt_or_ge j body.length with hjb | hjb
  · -- flip inside the body
    have hb : (serialize r).getD j 0 = body.getD j 0 := by
      rw [hser]
      simp [List.getD_eq_getElem?_getD, List.getElem?_append_left hjb]
    have hblt : body.getD j 0 < 256 := by
      have : body.getD j 0 = body[j] := by
        simp [List.getD_eq_getElem?_getD, List.getElem?_eq_getElem hjb]
      rw [this]
      exact hbytes _ (List.getElem_mem hjb)
    have hflip : flipBit (serialize r) j k =
        body.set j (body.getD j 0 ^^^ (1 <<< k)) ++ leBytes 4 c := by
      rw [flipBit, hb, hser, List.set_append_left _ _ hjb]
    set b' := body.getD j 0 ^^^ (1 <<< k) with hb'
    have hb'lt : b' < 256 :=
      Nat.xor_lt_two_pow (n := 8) (by omega) (by omega)
    have hb'ne : b' ≠ body.getD j 0 := by
      rw [hb']
      intro hcontr
      have := congrArg (fun x => x ^^^ body.getD j 0) hcontr
      simp only [Nat.xor_comm (body.getD j 0), Nat.xor_assoc, Nat.xor_self,
        Nat.xor_zero, Nat.zero_xor] at this
      exact hmaskne this
    -- decompose the body at j
    have hgj : body.getD j 0 = body[j] := by
      simp [List.getD_eq_getElem?_getD, List.getElem?_eq_getElem hjb]
    have hdecomp : body = body.take j ++ body[j] :: body.drop (j + 1) := by
      conv_lhs => rw [← List.take_append_drop j body]
      rw [List.drop_eq_getElem_cons hjb]
    have hsetdecomp : body.set j b' = body.take j ++ b' :: body.drop (j + 1) :=
      List.set_eq_take_cons_drop b' hjb
    have hcrcne : crc32 (body.set j b') ≠ c := by
      rw [hsetdecomp, hc]
      conv_rhs => rw [hdecomp]
      exact crc32_ne_single_diff (body.take j) (body.drop (j + 1)) b' body[j]
        (fun x hx => hbytes x (List.mem_of_mem_drop hx))
        hb'lt (hbytes _ (List.getElem_mem hjb)) (hgj ▸ hb'ne)
    -- run the deserializer
    have hnl : ¬ ((body.set j b' ++ leBytes 4 c).length < 4) := by simp
    have hcp : (body.set j b' ++ leBytes 4 c).length - 4 = (body.set j b').length := by
      simp
    rw [hflip, deserialize, if_neg hnl]
    simp only [hcp, List.drop_left, List.take_left, hdec]
    rw [if_pos hcrcne]
  · -- flip inside the trailer
    have hj4 : j - body.length < 4 := by omega
    have hb : (serialize r).getD j 0 = (leBytes 4 c).getD (j - body.length) 0 := by
      rw [hser]
      simp only [List.getD_eq_getElem?_getD, List.getElem?_append_right hjb]
    have hflip : flipBit (serialize r) j k =
        body ++ (leBytes 4 c).set (j - body.length)
          ((leBytes 4 c).getD (j - body.length) 0 ^^^ (1 <<< k)) := by
      rw [flipBit, hb, hser, List.set_append_right _ _ hjb]
    set t := leBytes 4 c with ht
    set j' := j - body.length with hj'
    have htl : t.length = 4 := leBytes_length 4 c
    have hj'4 : j' < t.length := by omega
    have hgj : t.getD j' 0 = t[j'] := by
      simp [List.getD_eq_getElem?_getD, List.getElem?_eq_getElem hj'4]
    set b' := t.getD j' 0 ^^^ (1 <<< k) with hb'
    have hb'lt : b' < 256 := by
      have : t[j'] < 256 := htrail _ (List.getElem_mem hj'4)
      rw [hb', hgj]
      exact Nat.xor_lt_two_pow (n := 8) (by omega) (by omega)
    have hb'ne : b' ≠ t[j'] := by
      rw [hb', hgj]
      intro hcontr
      have := congrArg (fun x => x ^^^ t[j']) hcontr
      simp only [Nat.xor_comm (t[j']), Nat.xor_assoc, Nat.xor_self,
        Nat.xor_zero, Nat.zero_xor] at this
      exact hmaskne this
    have hsetne : t.set j' b' ≠ t := by
      intro hcontr
      have hlt : j' < (t.set j' b').length := by rw [List.length_set]; omega
      have h1 : (t.set j' b').get ⟨j', hlt⟩ = b' := by
        simp [List.get_eq_getElem]
      simp only [hcontr, List.get_eq_getElem] at h1
      exact hb'ne h1.symm
    have hsetbytes : ∀ x ∈ t.set j' b', x < 256 := by
      intro x hx
      rcases List.mem_or_eq_of_mem_set hx with h | h
      · exact htrail x h
      · omega
    have hne2 : decodeLE (t.set j' b') ≠ decodeLE t := fun heq =>
      hsetne (decodeLE_inj _ _ (by simp) hsetbytes htrail heq)
    have hcond : c ≠ decodeLE (t.set j' b') := by
      intro heq
      exact hne2 (heq.symm.trans hdec.symm)
    have hnl : ¬ ((body ++ t.set j' b').length < 4) := by
      simp [List.length_set, htl]
    have hcp : (body ++ t.set j' b').length - 4 = body.length := by
      simp [List.length_set, htl]
    rw [hflip, deserialize, if_neg hnl]
    simp only [hcp, List.drop_left, List.take_left]
    rw [if_pos hcond]


/-- Concrete record used to witness C8. -/
def recC8 : Record :=
  { version := 1
    symbols := [[66]]
    base_ts := 2000
    ref_frame := [11]
    data := [5, 6]
    num_ticks := 2
    ref_crc := 1
    data_crc := 2
    overall_crc := 0 }

/-- Witness for C8: flipping bit 3 of byte 0 of the serialized `recC8`
makes `deserialize` return the overall-checksum-mismatch error. -/
theorem C8_witness :
    (recC8.version < 256) ∧
    (∀ s ∈ recC8.symbols, ∀ x ∈ s, x < 256) ∧
    (∀ x ∈ recC8.data, x < 256) ∧
    (0 < (serialize recC8).length) ∧ ((3 : Nat) < 8) ∧
    deserialize (flipBit (serialize recC8) 0 3) = .err "Overall checksum mismatch" :=
  ⟨by decide, by decide, by decide, by decide, by decide,
    C8_bit_flip_detected recC8 0 3 (by decide) (by decide) (by decide) (by decide)
      (by decide)⟩

end Hdrs
